import Mathlib

/-!
Verification of the `cqueue` MicroPython user module (src/cqueues.c): three
fixed-capacity circular-buffer classes (`IntQueue`, `FloatQueue`, `ByteQueue`)
with overwrite-oldest-on-full semantics.  The three classes duplicate the same
cursor algorithm over different element types, so the state and the bodies of
`put`/`get` are embedded once, parametrically in the element type, and the
per-class entry points are thin wrappers that match the corresponding C
functions line for line.
-/

namespace CQueues

variable {α : Type}

/-- Truncation of a host integer to the C `int32_t` stored by `IntQueue_put`,
modelling `int32_t putted = mp_obj_get_int(to_put);` (cqueues.c line 159). -/
def wrap32 (v : Int) : Int := (v + 2 ^ 31) % 2 ^ 32 - 2 ^ 31

/-- `v` is representable as a C `int32_t`, so `wrap32` leaves it unchanged. -/
def inRange32 (v : Int) : Prop := -(2 ^ 31) ≤ v ∧ v < 2 ^ 31

instance (v : Int) : Decidable (inRange32 v) := by
  unfold inRange32; infer_instance

/-- The state of one queue object.  Mirrors `struct _cqueue_IntQueue_obj_t`
(cqueues.c lines 45-54) and its Float/Byte twins: `size` is the capacity,
`write_idx`/`read_idx` the array cursors, `p_data` the backing array (its
length is the allocated element count), `num_items` the current fill and
`max_full` the high-water mark. -/
structure CQueue (α : Type) where
  size : Nat
  write_idx : Nat
  read_idx : Nat
  p_data : List α
  num_items : Nat
  max_full : Nat
deriving Repr, DecidableEq

/-- The body shared verbatim by `IntQueue_put` (lines 156-192),
`FloatQueue_put` (lines 393-429) and each loop iteration of `ByteQueue_put`
(lines 652-677): store the element at `write_idx`, advance `write_idx` with
wraparound, advance `read_idx` when the queue was already full at entry,
then increment `num_items`, clamp it to `size`, and update `max_full`.
`List.set` is a no-op out of bounds; the C store is unconditional, which
`put_store_inbounds` below accounts for separately. -/
def putOne (q : CQueue α) (v : α) : CQueue α :=
  let p_data := q.p_data.set q.write_idx v
  let write_idx := if q.write_idx + 1 ≥ q.size then 0 else q.write_idx + 1
  let read_idx :=
    if q.num_items ≥ q.size then
      if q.read_idx + 1 ≥ q.size then 0 else q.read_idx + 1
    else q.read_idx
  let num_items := if q.num_items + 1 ≥ q.size then q.size else q.num_items + 1
  let max_full := if num_items > q.max_full then num_items else q.max_full
  { q with p_data := p_data, write_idx := write_idx, read_idx := read_idx,
           num_items := num_items, max_full := max_full }

/-- Whether the unconditional store `self->p_data[self->write_idx] = …` at
the top of the put body (cqueues.c line 161, 398, 654) falls inside the
allocated array of `size` elements. -/
def put_store_inbounds (q : CQueue α) : Prop := q.write_idx < q.size

instance (q : CQueue α) : Decidable (put_store_inbounds q) := by
  unfold put_store_inbounds; infer_instance

/-- The body shared by `IntQueue_get` (lines 198-224), `FloatQueue_get`
(lines 435-461) and `ByteQueue_get` (lines 687-713): on an empty queue
return `none` with no state change; otherwise read `p_data[read_idx]`,
advance `read_idx` with wraparound, and decrement `num_items` (the final
`(int32_t)(num_items) <= 0` clamp of the C code included).  `d` stands for
the unspecified value a C read out of bounds would produce; reachable
states never use it. -/
def getOne (q : CQueue α) (d : α) : Option α × CQueue α :=
  if q.num_items = 0 then
    (none, q)
  else
    let to_return := q.p_data.getD q.read_idx d
    let read_idx := if q.read_idx + 1 ≥ q.size then 0 else q.read_idx + 1
    let n := q.num_items - 1
    let num_items := if (n : Int) ≤ 0 then 0 else n
    (some to_return, { q with read_idx := read_idx, num_items := num_items })

/-- `IntQueue.clear` (cqueues.c lines 116-127): zero both cursors, the item
count and the high-water mark; the backing array is untouched. -/
def IntQueue_clear (q : CQueue Int) : CQueue Int :=
  { q with write_idx := 0, read_idx := 0, num_items := 0, max_full := 0 }

/-- `IntQueue_make_new` (cqueues.c lines 92-111): record the requested size,
clear the bookkeeping fields, and allocate `size` elements once.  The C
allocation leaves the contents unspecified; they are modelled as zeros and
are never read before being written. -/
def IntQueue_make_new (sz : Nat) : CQueue Int :=
  { size := sz, write_idx := 0, read_idx := 0,
    p_data := List.replicate sz 0, num_items := 0, max_full := 0 }

/-- `IntQueue.any` (cqueues.c lines 132-138): `num_items > 0`. -/
def IntQueue_any (q : CQueue Int) : Bool := q.num_items > 0

/-- `IntQueue.full` (cqueues.c lines 144-150): `num_items >= size`. -/
def IntQueue_full (q : CQueue Int) : Bool := q.num_items ≥ q.size

/-- `IntQueue_put` (cqueues.c lines 156-192): convert the argument to
`int32_t`, then run the shared put body.  The function always returns
`None` to the caller; no error path exists, so the result type is just the
successor state. -/
def IntQueue_put (q : CQueue Int) (v : Int) : CQueue Int :=
  putOne q (wrap32 v)

/-- `IntQueue_get` (cqueues.c lines 198-224): the shared get body at element
type `Int`. -/
def IntQueue_get (q : CQueue Int) : Option Int × CQueue Int :=
  getOne q 0

/-- `IntQueue.available` (cqueues.c lines 230-236): returns `num_items`. -/
def IntQueue_available (q : CQueue Int) : Nat := q.num_items

/-- `IntQueue.max_full` (cqueues.c lines 243-249): returns the high-water
mark. -/
def IntQueue_max_full (q : CQueue Int) : Nat := q.max_full

/-- One call made by a client of `IntQueue`: the three mutating entry
points registered in `IntQueue_locals_dict_table`. -/
inductive QOp where
  | put (v : Int)
  | get
  | clear
deriving Repr, DecidableEq

/-- Apply one client call to the queue state, discarding the returned
value. -/
def applyOp (q : CQueue Int) : QOp → CQueue Int
  | .put v => IntQueue_put q v
  | .get => (IntQueue_get q).2
  | .clear => IntQueue_clear q

/-- Run a sequence of client calls left to right. -/
def run (q : CQueue Int) (ops : List QOp) : CQueue Int :=
  ops.foldl applyOp q

/-- Whether the call is `clear`. -/
def isClear : QOp → Bool
  | .clear => true
  | _ => false

/-- Whether the sequence contains a `clear` call. -/
def hasClear (ops : List QOp) : Bool := ops.any isClear

/-- The states the buffer passes through since the last `clear` in `ops`
(all states from `q` onwards when `ops` has no `clear`), final state
included.  `available()` ranges over exactly these states' `num_items`. -/
def statesSince (q : CQueue Int) : List QOp → List (CQueue Int)
  | [] => [q]
  | op :: ops =>
    if hasClear (op :: ops) then statesSince (applyOp q op) ops
    else q :: statesSince (applyOp q op) ops

/-- Maximum of a list of naturals, 0 for the empty list. -/
def listMax (l : List Nat) : Nat := l.foldl Nat.max 0

/-- The unread items of the queue, oldest first: `num_items` elements
starting at `read_idx`, wrapping modulo `size`.  `d` is the out-of-bounds
default, never used on states satisfying `Inv`. -/
def toList (d : α) (q : CQueue α) : List α :=
  (List.range q.num_items).map fun i => q.p_data.getD ((q.read_idx + i) % q.size) d

/-- `n` successive `get` calls: the list of returned values (in call
order) and the final state. -/
def getsN (d : α) : Nat → CQueue α → List (Option α) × CQueue α
  | 0, q => ([], q)
  | n + 1, q =>
    let r := getOne q d
    let rs := getsN d n r.2
    (r.1 :: rs.1, rs.2)

/-- The MicroPython objects relevant to the `ByteQueue.put` argument:
strings and bytes objects carry their byte data (each entry a byte value);
anything else fails `mp_obj_is_str_or_bytes`. -/
inductive MpObj where
  | mpStr (data : List Nat)
  | mpBytes (data : List Nat)
  | mpInt (v : Int)
  | mpNone
deriving Repr, DecidableEq

/-- `mp_obj_is_str_or_bytes` (used at cqueues.c line 641). -/
def mp_obj_is_str_or_bytes : MpObj → Bool
  | .mpStr _ => true
  | .mpBytes _ => true
  | _ => false

/-- `GET_STR_DATA_LEN` (cqueues.c line 649): the byte data of a string or
bytes object. -/
def strData : MpObj → List Nat
  | .mpStr d => d
  | .mpBytes d => d
  | _ => []

/-- Outcome of `ByteQueue_put`: either the call completed normally, or it
raised `TypeError`; `state` is the queue state when the call returns or the
exception propagates. -/
structure BytePutResult where
  raisedTypeError : Bool
  state : CQueue Nat
deriving Repr, DecidableEq

/-- `ByteQueue_put` (cqueues.c lines 638-681): raise `TypeError` before
touching the queue unless the argument is a string or bytes object;
otherwise run the shared put body once per byte of the argument, in
sequence order. -/
def ByteQueue_put (q : CQueue Nat) (arg : MpObj) : BytePutResult :=
  if mp_obj_is_str_or_bytes arg then
    { raisedTypeError := false, state := (strData arg).foldl putOne q }
  else
    { raisedTypeError := true, state := q }

/-- `ByteQueue_make_new` (cqueues.c lines 576-592), analogous to
`IntQueue_make_new`. -/
def ByteQueue_make_new (sz : Nat) : CQueue Nat :=
  { size := sz, write_idx := 0, read_idx := 0,
    p_data := List.replicate sz 0, num_items := 0, max_full := 0 }

/-- `ByteQueue_get` (cqueues.c lines 687-713): the shared get body; a
successful read is returned as `mp_obj_new_bytes(&to_return, 1)`, a bytes
object of length one. -/
def ByteQueue_get (q : CQueue Nat) : Option (List Nat) × CQueue Nat :=
  let r := getOne q 0
  (r.1.map fun b => [b], r.2)

/-- `ByteQueue.available` (cqueues.c lines 719-725). -/
def ByteQueue_available (q : CQueue Nat) : Nat := q.num_items

/-- `ByteQueue.clear` (cqueues.c lines 597-608). -/
def ByteQueue_clear (q : CQueue Nat) : CQueue Nat :=
  { q with write_idx := 0, read_idx := 0, num_items := 0, max_full := 0 }

/-- The reachability invariant of a queue state: the backing array holds
`size` elements, the fill never exceeds the capacity nor the high-water
mark, the high-water mark never exceeds the capacity, both cursors are
in range (they sit at 0 when `size = 0`), and the write cursor is the
read cursor advanced by the fill, modulo the capacity. -/
structure Inv (q : CQueue α) : Prop where
  data_len : q.p_data.length = q.size
  num_le : q.num_items ≤ q.size
  num_le_max : q.num_items ≤ q.max_full
  max_le : q.max_full ≤ q.size
  write_lt : q.write_idx < q.size ∨ q.write_idx = 0
  read_lt : q.read_idx < q.size ∨ q.read_idx = 0
  coherent : q.write_idx = (q.read_idx + q.num_items) % q.size

end CQueues

namespace CQueues

variable {α : Type}

/-! ### Arithmetic and list helpers -/

theorem wrap32_eq_self {v : Int} (h : inRange32 v) : wrap32 v = v := by
  obtain ⟨h1, h2⟩ := h
  have e1 : (2 : Int) ^ 31 = 2147483648 := by norm_num
  have e2 : (2 : Int) ^ 32 = 4294967296 := by norm_num
  unfold wrap32
  rw [e1, e2] at *
  rw [Int.emod_eq_of_lt (by omega) (by omega)]
  omega

theorem natCast_clamp (n : Nat) : (if ((n : Int)) ≤ 0 then (0 : Nat) else n) = n := by
  split
  · next h => omega
  · rfl

theorem wrapSucc {a s : Nat} (ha : a < s) :
    (if a + 1 ≥ s then 0 else a + 1) = (a + 1) % s := by
  split
  · next h =>
    have hs : a + 1 = s := by omega
    simp [hs]
  · next h => rw [Nat.mod_eq_of_lt (by omega)]

theorem mod_inj {s r i j : Nat} (hi : i < s) (hj : j < s)
    (h : (r + i) % s = (r + j) % s) : i = j := by
  have h1 : Nat.ModEq s (r + i) (r + j) := h
  have h2 : i % s = j % s := Nat.ModEq.add_left_cancel' r h1
  rwa [Nat.mod_eq_of_lt hi, Nat.mod_eq_of_lt hj] at h2

theorem natMax_def (a b : Nat) : Nat.max a b = if a ≤ b then b else a := rfl

theorem natMax_assoc (a b c : Nat) :
    Nat.max (Nat.max a b) c = Nat.max a (Nat.max b c) := by
  simp only [natMax_def]
  split_ifs <;> omega

theorem natMax_zero_left (a : Nat) : Nat.max 0 a = a := by
  rw [natMax_def]
  split <;> omega

theorem natMax_zero_right (a : Nat) : Nat.max a 0 = a := by
  rw [natMax_def]
  split <;> omega

theorem foldl_max_eq (l : List Nat) :
    ∀ a b : Nat, l.foldl Nat.max (Nat.max a b) = Nat.max a (l.foldl Nat.max b) := by
  induction l with
  | nil => intro a b; rfl
  | cons c l ih =>
    intro a b
    simp only [List.foldl_cons]
    rw [natMax_assoc]
    exact ih a (Nat.max b c)

theorem listMax_cons (a : Nat) (l : List Nat) :
    listMax (a :: l) = Nat.max a (listMax l) := by
  unfold listMax
  simp only [List.foldl_cons]
  have h := foldl_max_eq l a 0
  rw [natMax_zero_right] at h
  rw [natMax_zero_left]
  exact h

theorem getD_set_ne {l : List α} {i j : Nat} (v d : α) (h : i ≠ j) :
    (l.set i v).getD j d = l.getD j d := by
  rw [List.getD_eq_getD_get?, List.getD_eq_getD_get?, List.get?_set_ne v l h]

theorem getD_set_self {l : List α} {i : Nat} (v d : α) (h : i < l.length) :
    (l.set i v).getD i d = v := by
  rw [List.getD_eq_getD_get?, List.get?_set_eq_of_lt v h]
  rfl

/-! ### Field equations for the shared put/get bodies -/

theorem putOne_size (q : CQueue α) (v : α) : (putOne q v).size = q.size := rfl

theorem putOne_p_data (q : CQueue α) (v : α) :
    (putOne q v).p_data = q.p_data.set q.write_idx v := rfl

theorem putOne_write_idx (q : CQueue α) (v : α) :
    (putOne q v).write_idx
      = if q.write_idx + 1 ≥ q.size then 0 else q.write_idx + 1 := rfl

theorem putOne_read_idx (q : CQueue α) (v : α) :
    (putOne q v).read_idx
      = if q.num_items ≥ q.size then
          (if q.read_idx + 1 ≥ q.size then 0 else q.read_idx + 1)
        else q.read_idx := rfl

theorem putOne_num_items (q : CQueue α) (v : α) :
    (putOne q v).num_items
      = if q.num_items + 1 ≥ q.size then q.size else q.num_items + 1 := rfl

theorem putOne_max_full_ite (q : CQueue α) (v : α) :
    (putOne q v).max_full
      = if (putOne q v).num_items > q.max_full then (putOne q v).num_items
        else q.max_full := rfl

theorem putOne_max_full (q : CQueue α) (v : α) :
    (putOne q v).max_full = Nat.max q.max_full (putOne q v).num_items := by
  rw [putOne_max_full_ite, natMax_def]
  split_ifs <;> omega

theorem getOne_empty {q : CQueue α} (d : α) (h : q.num_items = 0) :
    getOne q d = (none, q) := by
  simp [getOne, h]

theorem getOne_pos {q : CQueue α} (d : α) (h : q.num_items ≠ 0) :
    getOne q d = (some (q.p_data.getD q.read_idx d),
      { q with read_idx := if q.read_idx + 1 ≥ q.size then 0 else q.read_idx + 1,
               num_items := q.num_items - 1 }) := by
  simp only [getOne, if_neg h]
  rw [natCast_clamp]

theorem getOne_snd_size (q : CQueue α) (d : α) : ((getOne q d).2).size = q.size := by
  unfold getOne; split <;> rfl

theorem getOne_snd_write_idx (q : CQueue α) (d : α) :
    ((getOne q d).2).write_idx = q.write_idx := by
  unfold getOne; split <;> rfl

theorem getOne_snd_p_data (q : CQueue α) (d : α) :
    ((getOne q d).2).p_data = q.p_data := by
  unfold getOne; split <;> rfl

theorem getOne_snd_max_full (q : CQueue α) (d : α) :
    ((getOne q d).2).max_full = q.max_full := by
  unfold getOne; split <;> rfl

/-! ### Invariant preservation -/

theorem Inv_putOne {q : CQueue α} {v : α} (h : Inv q) : Inv (putOne q v) := by
  obtain ⟨hdl, hns, hnm, hms, hw, hr, hc⟩ := h
  constructor
  · rw [putOne_p_data, List.length_set, hdl, putOne_size]
  · rw [putOne_num_items, putOne_size]; split <;> omega
  · rw [putOne_max_full_ite]; split <;> omega
  · rw [putOne_max_full_ite, putOne_size, putOne_num_items]; split_ifs <;> omega
  · rw [putOne_write_idx, putOne_size]; split <;> omega
  · rw [putOne_read_idx, putOne_size]; split
    · split <;> omega
    · omega
  · by_cases hs : q.size = 0
    · rw [putOne_write_idx, putOne_read_idx, putOne_num_items, putOne_size, hs]
      simp
    · have hw' : q.write_idx < q.size := by omega
      have hr' : q.read_idx < q.size := by omega
      have hwrite : (putOne q v).write_idx = (q.write_idx + 1) % q.size := by
        rw [putOne_write_idx, wrapSucc hw']
      by_cases hfull : q.num_items ≥ q.size
      · rw [hwrite, putOne_read_idx, if_pos hfull, wrapSucc hr',
            putOne_num_items, putOne_size, if_pos (by omega), hc,
            Nat.mod_add_mod, Nat.mod_add_mod]
        congr 1
        omega
      · rw [hwrite, putOne_read_idx, if_neg hfull, putOne_num_items, putOne_size,
            hc, Nat.mod_add_mod]
        split
        · congr 1 <;> omega
        · congr 1

theorem Inv_getOne {q : CQueue α} (d : α) (h : Inv q) : Inv (getOne q d).2 := by
  obtain ⟨hdl, hns, hnm, hms, hw, hr, hc⟩ := h
  by_cases h0 : q.num_items = 0
  · rw [getOne_empty d h0]
    exact ⟨hdl, hns, hnm, hms, hw, hr, hc⟩
  · rw [getOne_pos d h0]
    have hs : 0 < q.size := by omega
    have hr' : q.read_idx < q.size := by omega
    constructor
    · exact hdl
    · show q.num_items - 1 ≤ q.size
      omega
    · show q.num_items - 1 ≤ q.max_full
      omega
    · exact hms
    · exact hw
    · show (if q.read_idx + 1 ≥ q.size then 0 else q.read_idx + 1) < q.size ∨ _
      split <;> omega
    · show q.write_idx
        = ((if q.read_idx + 1 ≥ q.size then 0 else q.read_idx + 1)
            + (q.num_items - 1)) % q.size
      rw [wrapSucc hr', hc, Nat.mod_add_mod]
      congr 1
      omega

theorem Inv_IntQueue_clear {q : CQueue Int} (h : Inv q) : Inv (IntQueue_clear q) :=
  ⟨h.data_len, Nat.zero_le _, Nat.le_refl _, Nat.zero_le _,
   Or.inr rfl, Or.inr rfl, (Nat.zero_mod _).symm⟩

theorem Inv_IntQueue_make_new (sz : Nat) : Inv (IntQueue_make_new sz) := by
  refine ⟨?_, Nat.zero_le _, Nat.le_refl _, Nat.zero_le _,
    Or.inr rfl, Or.inr rfl, (Nat.zero_mod _).symm⟩
  simp [IntQueue_make_new]

theorem Inv_ByteQueue_make_new (sz : Nat) : Inv (ByteQueue_make_new sz) := by
  refine ⟨?_, Nat.zero_le _, Nat.le_refl _, Nat.zero_le _,
    Or.inr rfl, Or.inr rfl, (Nat.zero_mod _).symm⟩
  simp [ByteQueue_make_new]

theorem Inv_applyOp {q : CQueue Int} (op : QOp) (h : Inv q) : Inv (applyOp q op) := by
  cases op with
  | put v => exact Inv_putOne h
  | get => exact Inv_getOne 0 h
  | clear => exact Inv_IntQueue_clear h

theorem Inv_run {q : CQueue Int} (ops : List QOp) (h : Inv q) : Inv (run q ops) := by
  induction ops generalizing q with
  | nil => exact h
  | cons op ops ih => exact ih (Inv_applyOp op h)

theorem applyOp_size (q : CQueue Int) (op : QOp) : (applyOp q op).size = q.size := by
  cases op with
  | put v => rfl
  | get => exact getOne_snd_size q 0
  | clear => rfl

theorem run_size (q : CQueue Int) (ops : List QOp) : (run q ops).size = q.size := by
  induction ops generalizing q with
  | nil => rfl
  | cons op ops ih =>
    rw [show run q (op :: ops) = run (applyOp q op) ops from rfl, ih, applyOp_size]


/-! ### The abstraction: unread items, oldest first -/

theorem toList_length (d : α) (q : CQueue α) : (toList d q).length = q.num_items := by
  simp [toList]

theorem toList_empty (d : α) {q : CQueue α} (h : q.num_items = 0) : toList d q = [] := by
  simp [toList, h]

theorem getOne_snd_num_items {q : CQueue α} (d : α) (h : q.num_items ≠ 0) :
    ((getOne q d).2).num_items = q.num_items - 1 := by
  rw [getOne_pos d h]

theorem toList_putOne {q : CQueue α} (d v : α) (h : Inv q) (hs : 0 < q.size) :
    toList d (putOne q v)
      = (toList d q ++ [v]).drop (q.num_items + 1 - q.size) := by
  obtain ⟨hdl, hns, hnm, hms, hw, hr, hc⟩ := h
  have hw2 : q.write_idx < q.size := by omega
  have hr2 : q.read_idx < q.size := by omega
  have hlen : q.write_idx < q.p_data.length := by omega
  by_cases hfull : q.num_items ≥ q.size
  · -- the queue is full: the oldest element is dropped
    obtain ⟨t, ht⟩ : ∃ t, q.size = t + 1 := ⟨q.size - 1, by omega⟩
    have hn : q.num_items = q.size := by omega
    have hwr : q.write_idx = q.read_idx := by
      rw [hc, hn, Nat.add_mod_right, Nat.mod_eq_of_lt hr2]
    have hnum : (putOne q v).num_items = q.size := by
      rw [putOne_num_items, if_pos (by omega)]
    have hread : (putOne q v).read_idx = (q.read_idx + 1) % q.size := by
      rw [putOne_read_idx, if_pos hfull, wrapSucc hr2]
    have hdrop : q.num_items + 1 - q.size = 1 := by omega
    have lhs_eq : toList d (putOne q v)
        = ((List.range t).map fun i =>
            q.p_data.getD ((q.read_idx + (i + 1)) % q.size) d) ++ [v] := by
      simp only [toList, putOne_p_data, putOne_size, hnum, hread]
      rw [ht, List.range_succ, List.map_append]
      congr 1
      · apply List.map_congr_left
        intro i hi
        have hit : i < t := List.mem_range.mp hi
        have e1 : ((q.read_idx + 1) % (t + 1) + i) % (t + 1)
            = (q.read_idx + (i + 1)) % (t + 1) := by
          rw [Nat.mod_add_mod]
          congr 1 <;> omega
        have hne : q.write_idx ≠ (q.read_idx + (i + 1)) % (t + 1) := by
          intro he
          rw [hwr] at he
          have h0 : (q.read_idx + 0) % (t + 1) = (q.read_idx + (i + 1)) % (t + 1) := by
            rw [Nat.add_zero, Nat.mod_eq_of_lt (ht ▸ hr2)]
            exact he
          have := mod_inj (s := t + 1) (by omega) (by omega) h0
          omega
        rw [e1, getD_set_ne v d hne]
      · simp only [List.map_cons, List.map_nil]
        congr 1
        have e2 : ((q.read_idx + 1) % (t + 1) + t) % (t + 1) = q.write_idx := by
          rw [Nat.mod_add_mod]
          have e3 : q.read_idx + 1 + t = q.read_idx + (t + 1) := by omega
          rw [e3, Nat.add_mod_right, Nat.mod_eq_of_lt (ht ▸ hr2), hwr]
        rw [e2, getD_set_self v d hlen]
    have rhs_eq : (toList d q ++ [v]).drop 1
        = ((List.range t).map fun i =>
            q.p_data.getD ((q.read_idx + (i + 1)) % q.size) d) ++ [v] := by
      simp only [toList, hn, ht]
      rw [List.range_succ_eq_map, List.map_cons, List.cons_append, List.drop_one,
          List.tail_cons, List.map_map]
      congr 1
    rw [hdrop, lhs_eq, rhs_eq]
  · -- room left: nothing is dropped
    have hnum : (putOne q v).num_items = q.num_items + 1 := by
      rw [putOne_num_items]
      split <;> omega
    have hread : (putOne q v).read_idx = q.read_idx := by
      rw [putOne_read_idx, if_neg hfull]
    have hdrop : q.num_items + 1 - q.size = 0 := by omega
    rw [hdrop, List.drop_zero]
    simp only [toList, putOne_p_data, putOne_size, hnum, hread]
    rw [List.range_succ, List.map_append]
    congr 1
    · apply List.map_congr_left
      intro i hi
      have hin : i < q.num_items := List.mem_range.mp hi
      have hne : q.write_idx ≠ (q.read_idx + i) % q.size := by
        intro he
        rw [hc] at he
        have := mod_inj (s := q.size) (by omega) (by omega) he
        omega
      rw [getD_set_ne v d hne]
    · simp only [List.map_cons, List.map_nil]
      congr 1
      rw [← hc, getD_set_self v d hlen]

theorem toList_getOne {q : CQueue α} (d : α) (h : Inv q) (h0 : q.num_items ≠ 0) :
    toList d q = q.p_data.getD q.read_idx d :: toList d (getOne q d).2 := by
  have hns := h.num_le
  have hr := h.read_lt
  have hs : 0 < q.size := by omega
  have hr2 : q.read_idx < q.size := by omega
  rw [getOne_pos d h0]
  simp only [toList]
  obtain ⟨m, hm⟩ : ∃ m, q.num_items = m + 1 := ⟨q.num_items - 1, by omega⟩
  rw [hm, Nat.add_sub_cancel, List.range_succ_eq_map, List.map_cons, List.map_map]
  congr 1
  · rw [Nat.add_zero, Nat.mod_eq_of_lt hr2]
  · apply List.map_congr_left
    intro i hi
    simp only [Function.comp_apply]
    rw [wrapSucc hr2, Nat.mod_add_mod]
    congr 2
    omega

/-! ### Sequences of puts and gets -/

theorem Inv_foldl_putOne {q : CQueue α} (vs : List α) (h : Inv q) :
    Inv (vs.foldl putOne q) := by
  induction vs generalizing q with
  | nil => exact h
  | cons v vs ih => exact ih (Inv_putOne h)

theorem foldl_putOne_size (q : CQueue α) (vs : List α) :
    (vs.foldl putOne q).size = q.size := by
  induction vs generalizing q with
  | nil => rfl
  | cons v vs ih => rw [List.foldl_cons, ih, putOne_size]

theorem toList_foldl_putOne (d : α) (vs : List α) :
    ∀ q : CQueue α, Inv q → 0 < q.size →
    toList d (vs.foldl putOne q)
      = (toList d q ++ vs).drop (q.num_items + vs.length - q.size) := by
  induction vs with
  | nil =>
    intro q h hs
    have hn := h.num_le
    simp only [List.foldl_nil, List.append_nil, List.length_nil, Nat.add_zero]
    rw [show q.num_items - q.size = 0 from by omega, List.drop_zero]
  | cons v vs ih =>
    intro q h hs
    have hns := h.num_le
    have h2 : Inv (putOne q v) := Inv_putOne h
    have hs2 : 0 < (putOne q v).size := by rw [putOne_size]; exact hs
    have hnum : (putOne q v).num_items
        = q.num_items + 1 - (q.num_items + 1 - q.size) := by
      rw [putOne_num_items]
      split <;> omega
    have hlen1 : (toList d q ++ [v]).length = q.num_items + 1 := by
      rw [List.length_append, toList_length, List.length_cons, List.length_nil]
    have hle : q.num_items + 1 - q.size ≤ (toList d q ++ [v]).length := by
      rw [hlen1]; omega
    rw [List.foldl_cons, ih (putOne q v) h2 hs2, toList_putOne d v h hs,
        putOne_size, hnum, ← List.drop_append_of_le_length hle, List.drop_drop,
        List.append_assoc, List.singleton_append, List.length_cons]
    congr 1
    omega

theorem getsN_empty (d : α) {q : CQueue α} (h : q.num_items = 0) (n : Nat) :
    getsN d n q = (List.replicate n none, q) := by
  induction n with
  | zero => rfl
  | succ n ih =>
    simp only [getsN]
    rw [getOne_empty d h]
    simp only [ih, List.replicate_succ]

theorem getsN_spec (d : α) :
    ∀ (n : Nat) (q : CQueue α), Inv q → n ≤ q.num_items →
    (getsN d n q).1 = ((toList d q).take n).map some
    ∧ Inv (getsN d n q).2
    ∧ toList d (getsN d n q).2 = (toList d q).drop n
    ∧ (getsN d n q).2.size = q.size
    ∧ (getsN d n q).2.max_full = q.max_full := by
  intro n
  induction n with
  | zero =>
    intro q h hn
    exact ⟨by simp [getsN], h, by simp [getsN], rfl, rfl⟩
  | succ n ih =>
    intro q h hn
    have h0 : q.num_items ≠ 0 := by omega
    have hq2 : Inv (getOne q d).2 := Inv_getOne d h
    have hn2 : n ≤ (getOne q d).2.num_items := by
      rw [getOne_snd_num_items d h0]; omega
    obtain ⟨ih1, ih2, ih3, ih4, ih5⟩ := ih (getOne q d).2 hq2 hn2
    have hcons := toList_getOne d h h0
    have hfst : (getOne q d).1 = some (q.p_data.getD q.read_idx d) := by
      rw [getOne_pos d h0]
    refine ⟨?_, ih2, ?_, ?_, ?_⟩
    · show (getOne q d).1 :: (getsN d n (getOne q d).2).1
        = ((toList d q).take (n + 1)).map some
      rw [hcons, List.take_succ_cons, List.map_cons, hfst, ih1]
    · show toList d (getsN d n (getOne q d).2).2 = (toList d q).drop (n + 1)
      rw [ih3, hcons, List.drop_succ_cons]
    · show (getsN d n (getOne q d).2).2.size = q.size
      rw [ih4, getOne_snd_size]
    · show (getsN d n (getOne q d).2).2.max_full = q.max_full
      rw [ih5, getOne_snd_max_full]

theorem foldl_IntQueue_put (q : CQueue Int) (vs : List Int) :
    vs.foldl IntQueue_put q = (vs.map wrap32).foldl putOne q := by
  rw [List.foldl_map]
  rfl

theorem map_wrap32_of_inRange {vs : List Int} (h : ∀ v ∈ vs, inRange32 v) :
    vs.map wrap32 = vs := by
  induction vs with
  | nil => rfl
  | cons v vs ih =>
    rw [List.map_cons, wrap32_eq_self (h v (by simp)),
        ih fun w hw => h w (by simp [hw])]


/-! ### High-water mark bookkeeping -/

theorem le_natMax_left (a b : Nat) : a ≤ Nat.max a b := by
  rw [natMax_def]; split <;> omega

theorem le_natMax_right (a b : Nat) : b ≤ Nat.max a b := by
  rw [natMax_def]; split <;> omega

theorem hasClear_cons_put (v : Int) (ops : List QOp) :
    hasClear (QOp.put v :: ops) = hasClear ops := by
  simp [hasClear, isClear]

theorem hasClear_cons_get (ops : List QOp) :
    hasClear (QOp.get :: ops) = hasClear ops := by
  simp [hasClear, isClear]

theorem hasClear_cons_clear (ops : List QOp) :
    hasClear (QOp.clear :: ops) = true := by
  simp [hasClear, isClear]

theorem statesSince_cons (q : CQueue Int) (op : QOp) (ops : List QOp) :
    statesSince q (op :: ops)
      = if hasClear (op :: ops) then statesSince (applyOp q op) ops
        else q :: statesSince (applyOp q op) ops := rfl

theorem applyOp_max_full_put (q : CQueue Int) (v : Int) :
    (applyOp q (.put v)).max_full
      = Nat.max q.max_full (applyOp q (.put v)).num_items :=
  putOne_max_full q (wrap32 v)

theorem applyOp_max_full_get (q : CQueue Int) :
    (applyOp q .get).max_full = q.max_full :=
  getOne_snd_max_full q 0

theorem num_le_listMax_statesSince (q : CQueue Int) (ops : List QOp)
    (h : hasClear ops = false) :
    q.num_items ≤ listMax ((statesSince q ops).map (·.num_items)) := by
  cases ops with
  | nil =>
    show q.num_items ≤ listMax ([q].map (·.num_items))
    simp only [List.map_cons, List.map_nil]
    rw [listMax_cons]
    exact le_natMax_left _ _
  | cons op ops =>
    rw [statesSince_cons, if_neg (by simp [h]), List.map_cons, listMax_cons]
    exact le_natMax_left _ _

theorem max_full_run (ops : List QOp) :
    ∀ q : CQueue Int, Inv q →
    (run q ops).max_full
      = Nat.max (if hasClear ops then 0 else q.max_full)
          (listMax ((statesSince q ops).map (·.num_items))) := by
  induction ops with
  | nil =>
    intro q h
    have hnm := h.num_le_max
    show q.max_full
      = Nat.max (if hasClear [] then 0 else q.max_full) (listMax ([q].map (·.num_items)))
    have hif : (if hasClear ([] : List QOp) then (0 : Nat) else q.max_full) = q.max_full := rfl
    simp only [List.map_cons, List.map_nil]
    rw [hif, listMax_cons, show listMax ([] : List Nat) = 0 from rfl, natMax_zero_right,
        natMax_def]
    split <;> omega
  | cons op ops ih =>
    intro q h
    have h2 : Inv (applyOp q op) := Inv_applyOp op h
    have hnm := h.num_le_max
    rw [show run q (op :: ops) = run (applyOp q op) ops from rfl,
        ih (applyOp q op) h2, statesSince_cons]
    cases op with
    | clear =>
      rw [hasClear_cons_clear]
      have hmf : (applyOp q QOp.clear).max_full = 0 := rfl
      rw [hmf, ite_self]
      simp
    | put v =>
      rw [hasClear_cons_put]
      by_cases hco : hasClear ops = true
      · rw [if_pos hco, if_pos hco, if_pos hco]
      · have hco2 : hasClear ops = false := by
          cases hq : hasClear ops
          · rfl
          · exact absurd hq hco
        rw [if_neg hco, if_neg hco, if_neg hco, List.map_cons, listMax_cons,
            applyOp_max_full_put]
        have hnum2 := num_le_listMax_statesSince (applyOp q (.put v)) ops hco2
        simp only [natMax_def] at *
        split_ifs at * <;> omega
    | get =>
      rw [hasClear_cons_get]
      by_cases hco : hasClear ops = true
      · rw [if_pos hco, if_pos hco, if_pos hco]
      · rw [if_neg hco, if_neg hco, if_neg hco, List.map_cons, listMax_cons,
            applyOp_max_full_get]
        simp only [natMax_def] at *
        split_ifs at * <;> omega

theorem max_full_mono (ops : List QOp) :
    ∀ q : CQueue Int, hasClear ops = false → q.max_full ≤ (run q ops).max_full := by
  induction ops with
  | nil => intro q h; exact Nat.le_refl _
  | cons op ops ih =>
    intro q h
    cases op with
    | put v =>
      have h2 : hasClear ops = false := by rwa [hasClear_cons_put] at h
      have step : q.max_full ≤ (applyOp q (.put v)).max_full := by
        rw [applyOp_max_full_put]
        exact le_natMax_left _ _
      exact Nat.le_trans step (ih (applyOp q (.put v)) h2)
    | get =>
      have h2 : hasClear ops = false := by rwa [hasClear_cons_get] at h
      have step : q.max_full ≤ (applyOp q .get).max_full := by
        rw [applyOp_max_full_get]
      exact Nat.le_trans step (ih (applyOp q .get) h2)
    | clear =>
      rw [hasClear_cons_clear] at h
      exact absurd h (by simp)

/-! ### Zero capacity -/

theorem applyOp_zero_capacity (op : QOp) :
    applyOp (IntQueue_make_new 0) op = IntQueue_make_new 0 := by
  cases op with
  | put v => rfl
  | get => rfl
  | clear => rfl

theorem run_zero_capacity (ops : List QOp) :
    run (IntQueue_make_new 0) ops = IntQueue_make_new 0 := by
  induction ops with
  | nil => rfl
  | cons op ops ih =>
    rw [show run (IntQueue_make_new 0) (op :: ops)
          = run (applyOp (IntQueue_make_new 0) op) ops from rfl,
        applyOp_zero_capacity, ih]

/-! ### ByteQueue entry points -/

theorem ByteQueue_put_str {arg : MpObj} (q : CQueue Nat)
    (h : mp_obj_is_str_or_bytes arg = true) :
    ByteQueue_put q arg
      = { raisedTypeError := false, state := (strData arg).foldl putOne q } := by
  unfold ByteQueue_put
  rw [if_pos h]

theorem ByteQueue_put_bad {arg : MpObj} (q : CQueue Nat)
    (h : mp_obj_is_str_or_bytes arg = false) :
    ByteQueue_put q arg = { raisedTypeError := true, state := q } := by
  unfold ByteQueue_put
  rw [if_neg (by simp [h])]


/-! ### Start-state facts shared by the FIFO claims -/

theorem Inv_cleared_start {C : Nat} {stale : List Int} (h : stale.length = C) :
    Inv ({ size := C, write_idx := 0, read_idx := 0, p_data := stale,
           num_items := 0, max_full := 0 } : CQueue Int) :=
  ⟨h, Nat.zero_le _, Nat.le_refl _, Nat.zero_le _, Or.inr rfl, Or.inr rfl, by simp⟩

theorem fifo_core (C : Nat) (q0 : CQueue Int) (vs : List Int)
    (hq0 : Inv q0) (hnum0 : q0.num_items = 0) (hsize : q0.size = C) (hC : 0 < C) :
    toList 0 (vs.foldl putOne q0) = vs.drop (vs.length - C)
    ∧ (vs.foldl putOne q0).num_items = vs.length - (vs.length - C) := by
  have htl : toList 0 (vs.foldl putOne q0) = vs.drop (vs.length - C) := by
    rw [toList_foldl_putOne 0 vs q0 hq0 (by omega), toList_empty 0 hnum0, hnum0, hsize,
        List.nil_append, Nat.zero_add]
  exact ⟨htl, by rw [← toList_length 0, htl, List.length_drop]⟩

/-! ### The claims -/

/-- C1: Overwrite-oldest policy.  For capacity `C > 0`, after any `N > C`
puts of `v1..vN` into a fresh or cleared buffer (counters and cursors zero,
arbitrary stale storage of length `C`), the next `C` gets return exactly
`v(N-C+1)..vN` in order; and a put on a buffer whose count equals its
capacity advances the read cursor by one modulo the capacity.  `put` is a
total function into successor states, so no error is ever signalled. -/
theorem overwrite_oldest_policy (C : Nat) (stale vs : List Int)
    (hC : 0 < C) (hstale : stale.length = C) (hN : C < vs.length)
    (hrange : ∀ v ∈ vs, inRange32 v) :
    (getsN 0 C (vs.foldl IntQueue_put
        { size := C, write_idx := 0, read_idx := 0, p_data := stale,
          num_items := 0, max_full := 0 })).1
      = (vs.drop (vs.length - C)).map some
    ∧ ∀ (q : CQueue Int) (v : Int), Inv q → q.num_items = q.size → 0 < q.size →
        (IntQueue_put q v).read_idx = (q.read_idx + 1) % q.size := by
  constructor
  · rw [foldl_IntQueue_put, map_wrap32_of_inRange hrange]
    obtain ⟨htl, hnum⟩ := fifo_core C _ vs (Inv_cleared_start hstale) rfl rfl hC
    obtain ⟨g1, -, -, -, -⟩ := getsN_spec 0 C _
      (Inv_foldl_putOne vs (Inv_cleared_start hstale)) (by omega)
    rw [g1, htl, List.take_of_length_le (by rw [List.length_drop]; omega)]
  · intro q v hq hfull hs
    have hr2 : q.read_idx < q.size := by
      have := hq.read_lt
      omega
    show (putOne q (wrap32 v)).read_idx = _
    rw [putOne_read_idx, if_pos (by omega), wrapSucc hr2]

/-- Witness for the overwrite-oldest claim: capacity 2, puts 10, 20, 30;
the two gets return 20 then 30. -/
theorem overwrite_oldest_policy_witness :
    (getsN 0 2 ([10, 20, 30].foldl IntQueue_put
        { size := 2, write_idx := 0, read_idx := 0, p_data := [0, 0],
          num_items := 0, max_full := 0 })).1
      = ([(10 : Int), 20, 30].drop 1).map some :=
  (overwrite_oldest_policy 2 [0, 0] [10, 20, 30] (by decide) (by decide)
    (by decide) (by decide)).1

/-- C2: FIFO order without overflow.  For any `N ≤ C` puts of `v1..vN` into
a fresh or cleared buffer of capacity `C`, the next `N` gets return
`v1..vN` in order and every further get returns `none`. -/
theorem fifo_no_overflow (C : Nat) (stale vs : List Int)
    (hstale : stale.length = C) (hN : vs.length ≤ C)
    (hrange : ∀ v ∈ vs, inRange32 v) :
    (getsN 0 vs.length (vs.foldl IntQueue_put
        { size := C, write_idx := 0, read_idx := 0, p_data := stale,
          num_items := 0, max_full := 0 })).1
      = vs.map some
    ∧ ∀ m, (getsN 0 m (getsN 0 vs.length (vs.foldl IntQueue_put
        { size := C, write_idx := 0, read_idx := 0, p_data := stale,
          num_items := 0, max_full := 0 })).2).1
        = List.replicate m none := by
  rcases Nat.eq_zero_or_pos C with hC0 | hC
  · have hvs : vs = [] := List.eq_nil_of_length_eq_zero (by omega)
    subst hvs
    subst hC0
    constructor
    · rfl
    · intro m
      rw [getsN_empty 0 rfl m]
  · rw [foldl_IntQueue_put, map_wrap32_of_inRange hrange]
    obtain ⟨htl, hnum⟩ := fifo_core C _ vs (Inv_cleared_start hstale) rfl rfl hC
    have htl2 : toList 0 (vs.foldl putOne
        { size := C, write_idx := 0, read_idx := 0, p_data := stale,
          num_items := 0, max_full := 0 }) = vs := by
      rw [htl, show vs.length - C = 0 from by omega, List.drop_zero]
    obtain ⟨g1, -, g3, -, -⟩ := getsN_spec 0 vs.length _
      (Inv_foldl_putOne vs (Inv_cleared_start hstale)) (by omega)
    constructor
    · rw [g1, htl2, List.take_length]
    · intro m
      have hnum2 : (getsN 0 vs.length (vs.foldl putOne
          { size := C, write_idx := 0, read_idx := 0, p_data := stale,
            num_items := 0, max_full := 0 })).2.num_items = 0 := by
        rw [← toList_length 0, g3, htl2, List.drop_length]
        rfl
      rw [getsN_empty 0 hnum2 m]

/-- Witness for the FIFO claim: capacity 3, puts 7, 8; gets return 7, 8,
then two further gets return `none`. -/
theorem fifo_no_overflow_witness :
    (getsN 0 2 ([7, 8].foldl IntQueue_put
        { size := 3, write_idx := 0, read_idx := 0, p_data := [0, 0, 0],
          num_items := 0, max_full := 0 })).1
      = [(7 : Int), 8].map some
    ∧ (getsN 0 2 (getsN 0 2 ([7, 8].foldl IntQueue_put
        { size := 3, write_idx := 0, read_idx := 0, p_data := [0, 0, 0],
          num_items := 0, max_full := 0 })).2).1
      = List.replicate 2 none :=
  ⟨(fifo_no_overflow 3 [0, 0, 0] [7, 8] (by decide) (by decide) (by decide)).1,
   (fifo_no_overflow 3 [0, 0, 0] [7, 8] (by decide) (by decide) (by decide)).2 2⟩

/-- C3: Capacity-bound invariant.  After any sequence of operations on a
buffer of capacity `C`, `available()` is between 0 and `C` (it is a `Nat`,
so never negative), and for `C > 0` both cursors are valid indices below
`C`. -/
theorem capacity_bound_invariant (C : Nat) (ops : List QOp) :
    IntQueue_available (run (IntQueue_make_new C) ops) ≤ C
    ∧ (0 < C →
        (run (IntQueue_make_new C) ops).write_idx < C
        ∧ (run (IntQueue_make_new C) ops).read_idx < C) := by
  have h := Inv_run ops (Inv_IntQueue_make_new C)
  have hsz : (run (IntQueue_make_new C) ops).size = C := run_size _ _
  refine ⟨?_, fun hC => ⟨?_, ?_⟩⟩
  · have h1 := h.num_le
    show (run (IntQueue_make_new C) ops).num_items ≤ C
    omega
  · have h1 := h.write_lt
    omega
  · have h1 := h.read_lt
    omega

/-- Witness for the capacity bound at capacity 2 after three puts. -/
theorem capacity_bound_invariant_witness :
    IntQueue_available (run (IntQueue_make_new 2) [QOp.put 5, QOp.put 6, QOp.put 7]) ≤ 2
    ∧ (0 < 2 →
        (run (IntQueue_make_new 2) [QOp.put 5, QOp.put 6, QOp.put 7]).write_idx < 2
        ∧ (run (IntQueue_make_new 2) [QOp.put 5, QOp.put 6, QOp.put 7]).read_idx < 2) :=
  capacity_bound_invariant 2 [QOp.put 5, QOp.put 6, QOp.put 7]

/-- C4: High-water mark.  After any operation sequence, `max_full()` equals
the maximum `available()` observed at any point since construction or the
last `clear`, is at least the current `available()`, never exceeds the
capacity, and never decreases over a further clear-free sequence. -/
theorem high_water_mark_spec (C : Nat) (ops : List QOp) :
    IntQueue_max_full (run (IntQueue_make_new C) ops)
      = listMax ((statesSince (IntQueue_make_new C) ops).map (·.num_items))
    ∧ IntQueue_available (run (IntQueue_make_new C) ops)
        ≤ IntQueue_max_full (run (IntQueue_make_new C) ops)
    ∧ IntQueue_max_full (run (IntQueue_make_new C) ops) ≤ C
    ∧ ∀ more : List QOp, hasClear more = false →
        IntQueue_max_full (run (IntQueue_make_new C) ops)
          ≤ IntQueue_max_full (run (run (IntQueue_make_new C) ops) more) := by
  have h := Inv_run ops (Inv_IntQueue_make_new C)
  have hsz : (run (IntQueue_make_new C) ops).size = C := run_size _ _
  refine ⟨?_, ?_, ?_, ?_⟩
  · show (run (IntQueue_make_new C) ops).max_full = _
    rw [max_full_run ops (IntQueue_make_new C) (Inv_IntQueue_make_new C)]
    have hz : (if hasClear ops then (0 : Nat) else (IntQueue_make_new C).max_full)
        = 0 := by
      rw [show (IntQueue_make_new C).max_full = 0 from rfl, ite_self]
    rw [hz, natMax_zero_left]
  · exact h.num_le_max
  · have h1 := h.max_le
    show (run (IntQueue_make_new C) ops).max_full ≤ C
    omega
  · intro more hmore
    exact max_full_mono more _ hmore

/-- Witness for the high-water mark claim: the mark after put, put, get at
capacity 2 does not decrease over a further put. -/
theorem high_water_mark_spec_witness :
    IntQueue_max_full (run (IntQueue_make_new 2) [QOp.put 1, QOp.put 2, QOp.get])
      ≤ IntQueue_max_full
          (run (run (IntQueue_make_new 2) [QOp.put 1, QOp.put 2, QOp.get])
            [QOp.put 3]) :=
  (high_water_mark_spec 2 [QOp.put 1, QOp.put 2, QOp.get]).2.2.2 [QOp.put 3] rfl

/-- C6: Empty-read is side-effect-free.  When `available() = 0`, `get`
returns `none` and the state is unchanged, and so for any number of
repeated calls. -/
theorem empty_read_side_effect_free (q : CQueue Int) (n : Nat)
    (h : IntQueue_available q = 0) :
    IntQueue_get q = (none, q)
    ∧ getsN 0 n q = (List.replicate n none, q) := by
  have h0 : q.num_items = 0 := h
  exact ⟨getOne_empty 0 h0, getsN_empty 0 h0 n⟩

/-- Witness for the empty-read claim on a fresh capacity-3 queue. -/
theorem empty_read_side_effect_free_witness :
    IntQueue_get (IntQueue_make_new 3) = (none, IntQueue_make_new 3)
    ∧ getsN 0 2 (IntQueue_make_new 3)
        = (List.replicate 2 none, IntQueue_make_new 3) :=
  empty_read_side_effect_free (IntQueue_make_new 3) 2 rfl

/-- C7: ByteQueue type-mismatch atomicity.  A non-byte-like argument makes
`ByteQueue_put` raise `TypeError` before any mutation: the returned state
is exactly the input state. -/
theorem byte_put_type_mismatch (q : CQueue Nat) (arg : MpObj)
    (h : mp_obj_is_str_or_bytes arg = false) :
    ByteQueue_put q arg = { raisedTypeError := true, state := q } :=
  ByteQueue_put_bad q h

/-- Witness for the type-mismatch claim: putting an integer object into a
fresh capacity-3 byte queue raises and leaves the state unchanged. -/
theorem byte_put_type_mismatch_witness :
    ByteQueue_put (ByteQueue_make_new 3) (MpObj.mpInt 5)
      = { raisedTypeError := true, state := ByteQueue_make_new 3 } :=
  byte_put_type_mismatch (ByteQueue_make_new 3) (MpObj.mpInt 5) rfl

/-- C8: `clear` resets the counters and cursors but not the storage: after
`clear()`, `available() = 0`, `any() = false`, `max_full() = 0`,
`full() = true` exactly when the capacity is 0, both cursors are 0, and the
backing array and capacity are untouched.  `clear` is total: it has no
failure mode. -/
theorem clear_resets (q : CQueue Int) :
    IntQueue_available (IntQueue_clear q) = 0
    ∧ IntQueue_any (IntQueue_clear q) = false
    ∧ IntQueue_max_full (IntQueue_clear q) = 0
    ∧ (IntQueue_full (IntQueue_clear q) = true ↔ q.size = 0)
    ∧ (IntQueue_clear q).write_idx = 0
    ∧ (IntQueue_clear q).read_idx = 0
    ∧ (IntQueue_clear q).p_data = q.p_data
    ∧ (IntQueue_clear q).size = q.size := by
  refine ⟨rfl, rfl, rfl, ?_, rfl, rfl, rfl, rfl⟩
  unfold IntQueue_full IntQueue_clear
  simp [Nat.le_zero]

/-- C9: Zero-capacity behaviour.  A capacity-0 queue is permanently both
empty and full, and every operation leaves the state unchanged; but the
store `p_data[write_idx]` performed unconditionally at the top of `put`
falls outside the zero-length allocation, so `put` is not free of
out-of-bounds storage access: the code writes before checking the size. -/
theorem zero_capacity_queue (ops : List QOp) :
    run (IntQueue_make_new 0) ops = IntQueue_make_new 0
    ∧ IntQueue_any (run (IntQueue_make_new 0) ops) = false
    ∧ IntQueue_full (run (IntQueue_make_new 0) ops) = true
    ∧ ¬ put_store_inbounds (run (IntQueue_make_new 0) ops) := by
  have h := run_zero_capacity ops
  refine ⟨h, ?_, ?_, ?_⟩ <;> rw [h] <;> decide

/-- Witness for the zero-capacity claim after a single put. -/
theorem zero_capacity_queue_witness :
    run (IntQueue_make_new 0) [QOp.put 5] = IntQueue_make_new 0
    ∧ IntQueue_any (run (IntQueue_make_new 0) [QOp.put 5]) = false
    ∧ IntQueue_full (run (IntQueue_make_new 0) [QOp.put 5]) = true
    ∧ ¬ put_store_inbounds (run (IntQueue_make_new 0) [QOp.put 5]) :=
  zero_capacity_queue [QOp.put 5]

/-- C10: Cursor-count coherence.  For capacity `C > 0`, after any operation
sequence from construction, `write_idx = (read_idx + num_items) % C`, and
each of put, get and clear preserves this relation on any state satisfying
the reachability invariant. -/
theorem cursor_count_coherence (C : Nat) (ops : List QOp) (hC : 0 < C) :
    (run (IntQueue_make_new C) ops).write_idx
      = ((run (IntQueue_make_new C) ops).read_idx
          + (run (IntQueue_make_new C) ops).num_items) % C
    ∧ ∀ (q : CQueue Int) (op : QOp), Inv q →
        (applyOp q op).write_idx
          = ((applyOp q op).read_idx + (applyOp q op).num_items)
              % (applyOp q op).size := by
  constructor
  · have h := (Inv_run ops (Inv_IntQueue_make_new C)).coherent
    have hsz : (run (IntQueue_make_new C) ops).size = C := run_size _ _
    rw [hsz] at h
    exact h
  · intro q op hq
    exact (Inv_applyOp op hq).coherent

/-- Witness for the coherence claim at capacity 3 after put, put, get. -/
theorem cursor_count_coherence_witness :
    (run (IntQueue_make_new 3) [QOp.put 1, QOp.put 2, QOp.get]).write_idx
      = ((run (IntQueue_make_new 3) [QOp.put 1, QOp.put 2, QOp.get]).read_idx
          + (run (IntQueue_make_new 3) [QOp.put 1, QOp.put 2, QOp.get]).num_items)
          % 3 :=
  (cursor_count_coherence 3 [QOp.put 1, QOp.put 2, QOp.get] (by decide)).1


/-- C5: Byte-sequence write semantics.  A `ByteQueue_put` call with a
byte-like argument applies the one-element put body once per byte in
sequence order; a write of more than `capacity` bytes leaves exactly the
last `capacity` bytes as the unread content, oldest first; and a
successful `ByteQueue_get` returns a bytes object of exactly one byte. -/
theorem byte_sequence_write (q : CQueue Nat) (arg : MpObj)
    (hq : Inv q) (hstr : mp_obj_is_str_or_bytes arg = true)
    (hs : 0 < q.size) (hlen : q.size < (strData arg).length) :
    ByteQueue_put q arg
      = { raisedTypeError := false, state := (strData arg).foldl putOne q }
    ∧ toList 0 (ByteQueue_put q arg).state
      = (strData arg).drop ((strData arg).length - q.size)
    ∧ ∀ (p : CQueue Nat) (r : List Nat), (ByteQueue_get p).1 = some r →
        r.length = 1 := by
  have hput := ByteQueue_put_str q hstr
  refine ⟨hput, ?_, ?_⟩
  · rw [hput]
    show toList 0 ((strData arg).foldl putOne q)
      = (strData arg).drop ((strData arg).length - q.size)
    rw [toList_foldl_putOne 0 (strData arg) q hq hs]
    have hk : q.num_items + (strData arg).length - q.size
        = (toList 0 q).length + ((strData arg).length - q.size) := by
      rw [toList_length]
      have := hq.num_le
      omega
    rw [hk, List.drop_append]
  · intro p r hr
    unfold ByteQueue_get at hr
    by_cases h0 : p.num_items = 0
    · rw [getOne_empty 0 h0] at hr
      simp at hr
    · rw [getOne_pos 0 h0] at hr
      simp only [Option.map_some] at hr
      rw [← Option.some_inj.mp hr]
      rfl

/-- Witness for the byte-sequence claim: concrete scenario at capacity 4.
`put "ab"` gives `available() = 2`; two gets yield `b"a"` then `b"b"`;
`put "hello"` (5 bytes into capacity 4) leaves content `"ello"` oldest
first. -/
theorem byte_sequence_write_witness :
    ByteQueue_available
        ((ByteQueue_put (ByteQueue_make_new 4) (MpObj.mpStr [97, 98])).state) = 2
    ∧ (ByteQueue_get
        ((ByteQueue_put (ByteQueue_make_new 4) (MpObj.mpStr [97, 98])).state)).1
      = some [97]
    ∧ (ByteQueue_get (ByteQueue_get
        ((ByteQueue_put (ByteQueue_make_new 4) (MpObj.mpStr [97, 98])).state)).2).1
      = some [98]
    ∧ toList 0 (ByteQueue_put
        (ByteQueue_get (ByteQueue_get
          ((ByteQueue_put (ByteQueue_make_new 4) (MpObj.mpStr [97, 98])).state)).2).2
        (MpObj.mpStr [104, 101, 108, 108, 111])).state
      = [101, 108, 108, 111] := by
  refine ⟨by decide, by decide, by decide, ?_⟩
  have h := byte_sequence_write
    (ByteQueue_get (ByteQueue_get
      ((ByteQueue_put (ByteQueue_make_new 4) (MpObj.mpStr [97, 98])).state)).2).2
    (MpObj.mpStr [104, 101, 108, 108, 111])
    ⟨by decide, by decide, by decide, by decide, by decide, by decide, by decide⟩
    (by decide) (by decide) (by decide)
  exact h.2.1.trans (by decide)

end CQueues
